import Mathlib

/-!
# Verification of the tfs-hours delta-reconstruction service

Shallow embedding of the core of src/server.js (plus the SQL schema) of the
tfs-hours repository, together with theorems settling the frozen claims.

Conventions of the embedding:
* timestamps are integers: milliseconds since the Unix epoch (the JS Date
  internal representation);
* hours values are rationals (the code manipulates JS numbers / SQL
  double precision; the claims under verification are about the algebraic
  structure of the queries, not about rounding);
* JSON-level string/number parsing that the claims do not exercise
  (toDateOrNull on arbitrary ISO strings, normNum, normInt) is abstracted:
  ingest rows carry already-normalised Option-typed fields, so those
  helpers act as the identity and are inlined;
* SQL NULL is Option.none; SQL comparisons involving NULL are not true
  (three-valued logic collapsed to Bool, as in a WHERE clause);
* a SQL table is modelled by a list of rows when row identity matters to a
  claim (the snapshot ledger, the runs table) and by a finitely-supported
  function from the primary key when only keyed contents matter (the
  latest projection, whose primary key is task_id).
-/

namespace TfsHours

/-! ## Calendar arithmetic (the JS Date.UTC model)

src/server.js builds UTC instants with Date.UTC(y, mo - 1, d).  JS Date.UTC
normalises out-of-range months by carrying into the year (month index 12 of
2024 is January 2025) and offsets out-of-range days from the first of the
normalised month; years 0..99 are interpreted as 1900..1999.  Its result is
NaN only beyond +-8.64e15 ms, which a four-digit year can never reach, so
the embedding is total.  Civil-calendar/day conversions use the standard
era-based algorithm. -/

/-- Number of days from 1970-01-01 to the civil date y-m-d (m is 1..12). -/
def daysFromCivil (y m d : Int) : Int :=
  let y' : Int := y - (if m ≤ 2 then 1 else 0)
  let era : Int := Int.fdiv y' 400
  let yoe : Int := y' - era * 400
  let mp : Int := m + (if 2 < m then -3 else 9)
  let doy : Int := Int.fdiv (153 * mp + 2) 5 + d - 1
  let doe : Int := yoe * 365 + Int.fdiv yoe 4 - Int.fdiv yoe 100 + doy
  era * 146097 + doe - 719468

/-- Inverse of daysFromCivil: the civil date (y, m, d) of an epoch day. -/
def civilFromDays (z : Int) : Int × Int × Int :=
  let z' : Int := z + 719468
  let era : Int := Int.fdiv z' 146097
  let doe : Int := z' - era * 146097
  let yoe : Int :=
    Int.fdiv (doe - Int.fdiv doe 1460 + Int.fdiv doe 36524 - Int.fdiv doe 146096) 365
  let y : Int := yoe + era * 400
  let doy : Int := doe - (365 * yoe + Int.fdiv yoe 4 - Int.fdiv yoe 100)
  let mp : Int := Int.fdiv (5 * doy + 2) 153
  let d : Int := doy - Int.fdiv (153 * mp + 2) 5 + 1
  let m : Int := mp + (if mp < 10 then 3 else -9)
  (y + (if m ≤ 2 then 1 else 0), m, d)

/-- JS Date.UTC(y, m, d) in ms (m is the 0-based JS month index; both the
month and the day are normalised by carrying, exactly as in JS). -/
def dateUtcMs (y m d : Int) : Int :=
  let yy : Int := if 0 ≤ y ∧ y ≤ 99 then y + 1900 else y
  let yAdj : Int := yy + Int.fdiv m 12
  let mm : Int := Int.emod m 12
  (daysFromCivil yAdj (mm + 1) 1 + (d - 1)) * 86400000

example : daysFromCivil 1970 1 1 = 0 := by decide
example : daysFromCivil 2024 1 1 = 19723 := by decide
example : civilFromDays 19724 = (2024, 1, 2) := by decide
example : dateUtcMs 2024 12 1 = dateUtcMs 2025 0 1 := by decide

/-! ## parseYmd / localMidnightToUtcDate / rangeFromToUtc
(src/server.js lines 91-125) -/

/-- The value 0..9 of a decimal digit character, none otherwise. -/
def digitVal (c : Char) : Option Int :=
  if c.isDigit then some ((c.toNat : Int) - 48) else none

/-- Strips leading and trailing whitespace (the JS String.trim). -/
def trimChars (l : List Char) : List Char :=
  ((l.dropWhile Char.isWhitespace).reverse.dropWhile Char.isWhitespace).reverse

/-- src/server.js parseYmd: matches the trimmed string against the regex
(dddd)-(dd)-(dd) and returns the three numeric groups.  The regex checks
only the shape; it does not validate month or day ranges. -/
def parseYmd (s : String) : Option (Int × Int × Int) :=
  match trimChars s.toList with
  | [a, b, c, d, '-', e, f, '-', g, h] =>
    match digitVal a, digitVal b, digitVal c, digitVal d,
          digitVal e, digitVal f, digitVal g, digitVal h with
    | some va, some vb, some vc, some vd, some ve, some vf, some vg, some vh =>
      some (va * 1000 + vb * 100 + vc * 10 + vd, ve * 10 + vf, vg * 10 + vh)
    | _, _, _, _, _, _, _, _ => none
  | _ => none

/-- src/server.js localMidnightToUtcDate: utc = Date.UTC(y, mo-1, d) minus
offsetMinutes.  (The JS isNaN guard can never fire for a four-digit year,
see the Date.UTC model above.) -/
def localMidnightToUtcDate (dateStr : String) (offsetMinutes : Int) : Option Int :=
  (parseYmd dateStr).map fun p =>
    dateUtcMs p.1 (p.2.1 - 1) p.2.2 - offsetMinutes * 60 * 1000

/-- src/server.js rangeFromToUtc: resolves the calendar-day pair to the
half-open UTC window; toExclusive is one day past the local midnight of
the to date. -/
def rangeFromToUtc (fromStr toStr : String) (offsetMinutes : Int) :
    Option (Int × Int) :=
  match localMidnightToUtcDate fromStr offsetMinutes,
        localMidnightToUtcDate toStr offsetMinutes with
  | some fromUtc, some toStartUtc => some (fromUtc, toStartUtc + 86400 * 1000)
  | _, _ => none

example : rangeFromToUtc "2024-01-01" "2024-01-01" (-480) =
    some (1704096000000, 1704182400000) := by decide

/-! ## Bucket truncation (the d CTE of the summary / export SQL)

date_trunc($3, t + ($4 || ' minutes')::interval) - ($4 || ' minutes')::interval
with $3 in {day, week, month} and $4 the report offset, evaluated at the
UTC session timezone. -/

/-- The bucket unit accepted by the summary and export endpoints. -/
inductive Bucket where
  | day : Bucket
  | week : Bucket
  | month : Bucket
deriving DecidableEq

/-- Postgres date_trunc at UTC on an epoch-ms instant: day floors to UTC
midnight, week floors to the preceding Monday midnight, month floors to
the first of the civil month. -/
def dateTrunc (u : Bucket) (ms : Int) : Int :=
  match u with
  | .day => Int.fdiv ms 86400000 * 86400000
  | .week =>
    let d := Int.fdiv ms 86400000
    (d - Int.emod (d + 3) 7) * 86400000
  | .month =>
    let c := civilFromDays (Int.fdiv ms 86400000)
    daysFromCivil c.1 c.2.1 1 * 86400000

/-- The bucket expression of the d CTE (src/server.js lines 487 and 777):
truncate after shifting by the report offset, then shift back. -/
def bucketExpr (u : Bucket) (t offsetMinutes : Int) : Int :=
  dateTrunc u (t + offsetMinutes * 60000) - offsetMinutes * 60000

example : bucketExpr .day 1704182340000 (-480) = 1704096000000 := by decide

/-! ## Data model of the ingest path

The three tables of src/unnamed/part_001 and the ingest helpers of
src/server.js (chunkArray, buildUpsertLatest, buildSnapshotInsert, the
/api/tfs-hours-sync transaction). -/

/-- One incoming row of the ingest batch (the JSON row shape consumed by
/api/tfs-hours-sync).  Fields carry already-normalised values: taskId is
the result of normInt, taskChangedDate and syncedAtUtc the results of
toDateOrNull (epoch ms), actualHours the result of normNum, parentId and
accountCode the results of normInt. -/
structure Row where
  taskId : Option Int
  taskTitle : Option String
  taskChangedDate : Option Int
  activity : Option String
  taskAssignedTo : Option String
  taskAssignedToUPN : Option String
  actualHours : Option ℚ
  parentId : Option Int
  parentType : Option String
  parentTitle : Option String
  accountCode : Option Int
  syncedAtUtc : Option Int
deriving DecidableEq

/-- A row of public.tfs_task_hours_latest (primary key task_id). -/
structure LatRow where
  task_id : Int
  task_title : Option String
  task_changed_date : Option Int
  task_activity : Option String
  task_assigned_to : Option String
  task_assigned_upn : Option String
  task_actual_hours : Option ℚ
  parent_id : Option Int
  parent_type : Option String
  parent_title : Option String
  account_code : Option Int
  synced_at : Int
deriving DecidableEq

/-- A row of public.tfs_task_hours_snapshots. -/
structure SnapRow where
  run_id : Int
  snapshot_at : Int
  task_id : Option Int
  task_assigned_upn : Option String
  task_assigned_to : Option String
  task_changed_date : Option Int
  task_activity : Option String
  task_actual_hours : Option ℚ
  parent_id : Option Int
  account_code : Option Int
deriving DecidableEq

/-- A row of public.tfs_hours_runs. -/
structure RunRow where
  run_id : Int
  run_at : Int
  source : String
  item_count : ℕ
deriving DecidableEq

/-- The latest projection as keyed contents: task_id to its row (the
table's primary key is task_id, so the table is exactly this map). -/
def Lat : Type := Int → Option LatRow

/-- The whole persistent store. -/
structure DbState where
  runs : List RunRow
  lat : Lat
  snaps : List SnapRow

/-- Slicing loop of chunkArray, structurally recursive on a fuel bound (one
unit of fuel per produced chunk; the list length is always enough fuel for
a positive size). -/
def chunkArrayGo : ℕ → List α → ℕ → List (List α)
  | _, [], _ => []
  | 0, _ :: _, _ => []
  | fuel + 1, a :: l, n =>
    if n = 0 then [] else (a :: l).take n :: chunkArrayGo fuel ((a :: l).drop n) n

/-- src/server.js chunkArray: consecutive slices of the given size.  (For
size 0 the JS loop would not terminate; the server only ever calls this
with size 200, and every theorem below assumes a positive size.) -/
def chunkArray (l : List α) (n : ℕ) : List (List α) :=
  chunkArrayGo l.length l n

/-- The SQL comparison stored <= incoming on nullable timestamps: not true
when either side is NULL (three-valued logic collapsed to Bool, as in the
WHERE clause of ON CONFLICT DO UPDATE). -/
def sqlLeOpt (a b : Option Int) : Bool :=
  match a, b with
  | some x, some y => decide (x ≤ y)
  | _, _ => false

/-- The ON CONFLICT (task_id) DO UPDATE ... WHERE task_changed_date <=
EXCLUDED.task_changed_date upsert of buildUpsertLatest (src/server.js
lines 188-205): insert when the task is absent; when present, replace all
fields exactly when the stored changed date is SQL-<= the incoming one,
else leave the row untouched (no error either way). -/
def upsertLatestRow (tbl : Lat) (e : LatRow) : Lat :=
  fun tid =>
    if tid = e.task_id then
      match tbl e.task_id with
      | none => some e
      | some old =>
        if sqlLeOpt old.task_changed_date e.task_changed_date then some e else some old
    else tbl tid

/-- Association-list lookup for the JS Map of buildUpsertLatest. -/
def mapLookup : List (Int × Row) → Int → Option Row
  | [], _ => none
  | (k', v) :: m, k => if k' = k then some v else mapLookup m k

/-- Association-list set for the JS Map (replaces in place, appends when
absent; JS Map preserves insertion order). -/
def mapSet : List (Int × Row) → Int → Row → List (Int × Row)
  | [], k, v => [(k, v)]
  | (k', v') :: m, k, v =>
    if k' = k then (k, v) :: m else (k', v') :: mapSet m k v

/-- The in-memory dedup rule of buildUpsertLatest (src/server.js line 142):
replace the kept entry iff the kept entry has no changed date, or the new
row has one that is strictly later. -/
def latReplaces (prev r : Row) : Bool :=
  match prev.taskChangedDate, r.taskChangedDate with
  | none, _ => true
  | some _, none => false
  | some p, some t => decide (p < t)

/-- One step of the per-batch reduction to the latest row per task id
(src/server.js lines 131-145); rows without a valid task id are skipped. -/
def dedupLatStep (m : List (Int × Row)) (r : Row) : List (Int × Row) :=
  match r.taskId with
  | none => m
  | some tid =>
    match mapLookup m tid with
    | none => mapSet m tid { r with taskId := some tid }
    | some prev =>
      if latReplaces prev r then mapSet m tid { r with taskId := some tid } else m

/-- The per-chunk reduction of buildUpsertLatest: latest row per task id,
in first-occurrence order (Array.from(latestByTask.values())). -/
def dedupLat (rows : List Row) : List (Int × Row) :=
  rows.foldl dedupLatStep []

/-- The VALUES tuple pushed for one kept row (src/server.js lines 169-182). -/
def latEntryOfRow (now : Int) (tid : Int) (r : Row) : LatRow where
  task_id := tid
  task_title := r.taskTitle
  task_changed_date := r.taskChangedDate
  task_activity := r.activity
  task_assigned_to := r.taskAssignedTo
  task_assigned_upn := r.taskAssignedToUPN
  task_actual_hours := r.actualHours
  parent_id := r.parentId
  parent_type := r.parentType
  parent_title := r.parentTitle
  account_code := r.accountCode
  synced_at := r.syncedAtUtc.getD now

/-- The row list of the multi-row INSERT built by buildUpsertLatest. -/
def buildUpsertLatest (now : Int) (rows : List Row) : List LatRow :=
  (dedupLat rows).map fun p => latEntryOfRow now p.1 p.2

/-- Executing the INSERT of buildUpsertLatest against the projection: after
the dedup the VALUES rows have pairwise-distinct task ids, so the
statement is the sequence of independent per-row upserts. -/
def applyLatChunk (now : Int) (tbl : Lat) (ch : List Row) : Lat :=
  (buildUpsertLatest now ch).foldl upsertLatestRow tbl

/-- The dedup key of buildSnapshotInsert (src/server.js line 216): the
(task id, changed date) pair; the JS key string renders both nulls and
values, so none compares equal to none here. -/
def snapKey (r : Row) : Option Int × Option Int :=
  (r.taskId, r.taskChangedDate)

/-- The seen-set dedup of buildSnapshotInsert (src/server.js lines 211-220):
keep the first occurrence of each (task id, changed date) key. -/
def dedupSnapGo (seen : List (Option Int × Option Int)) : List Row → List Row
  | [] => []
  | r :: rs =>
    if snapKey r ∈ seen then dedupSnapGo seen rs
    else r :: dedupSnapGo (snapKey r :: seen) rs

/-- Batch dedup for the ledger write. -/
def dedupSnap (rows : List Row) : List Row :=
  dedupSnapGo [] rows

/-- The VALUES tuple pushed for one ledger row (src/server.js lines 241-252). -/
def snapRowOf (runId snapshotAt : Int) (r : Row) : SnapRow where
  run_id := runId
  snapshot_at := snapshotAt
  task_id := r.taskId
  task_assigned_upn := r.taskAssignedToUPN
  task_assigned_to := r.taskAssignedTo
  task_changed_date := r.taskChangedDate
  task_activity := r.activity
  task_actual_hours := r.actualHours
  parent_id := r.parentId
  account_code := r.accountCode

/-- The conflict target of the ledger insert, ON CONFLICT (run_id, task_id,
task_changed_date) (src/server.js line 261), under unique-index equality:
two rows conflict iff their run ids agree and both key components are
non-NULL and equal (SQL NULLs are never equal in a unique index).  Note
the target includes run_id - and note that the declared schema carries no
unique index on these three columns, so the statement never actually
reaches this matching: see snapInsertExec below. -/
def snapConflict (a b : SnapRow) : Bool :=
  decide (a.run_id = b.run_id) &&
    (match a.task_id, b.task_id with
     | some x, some y => decide (x = y)
     | _, _ => false) &&
    (match a.task_changed_date, b.task_changed_date with
     | some x, some y => decide (x = y)
     | _, _ => false)

/-- The DO UPDATE SET of the ledger upsert (src/server.js lines 261-268):
overwrites every column except the conflict-key columns. -/
def snapUpdate (old e : SnapRow) : SnapRow where
  run_id := old.run_id
  snapshot_at := e.snapshot_at
  task_id := old.task_id
  task_assigned_upn := e.task_assigned_upn
  task_assigned_to := e.task_assigned_to
  task_changed_date := old.task_changed_date
  task_activity := e.task_activity
  task_actual_hours := e.task_actual_hours
  parent_id := e.parent_id
  account_code := e.account_code

/-- One row of the conflict-resolution semantics the ledger INSERT
declares: update the conflicting row in place when one exists, append
otherwise.  Against the declared schema this semantics is dead code - the
statement raises 42P10 before resolving any conflict (snapInsertExec); it
describes what the clause would do had the matching unique index
existed. -/
def upsertSnapRow (tbl : List SnapRow) (e : SnapRow) : List SnapRow :=
  if tbl.any (fun r => snapConflict r e) then
    tbl.map (fun r => if snapConflict r e then snapUpdate r e else r)
  else tbl ++ [e]

/-- Executing the INSERT of buildSnapshotInsert for one chunk. -/
def applySnapChunk (runId runAt : Int) (tbl : List SnapRow) (ch : List Row) : List SnapRow :=
  ((dedupSnap ch).map (snapRowOf runId runAt)).foldl upsertSnapRow tbl

/-- Per-chunk enrichment (src/server.js lines 299-302): every row's
syncedAtUtc is overwritten with the canonical run time. -/
def enrich (runAt : Int) (r : Row) : Row :=
  { r with syncedAtUtc := some runAt }

/-- Processing of one chunk inside the ingest transaction (src/server.js
lines 298-309): projection upsert first, then ledger upsert, both from the
enriched chunk. -/
def ingestChunkStep (runId runAt now : Int) (st : DbState) (ch : List Row) : DbState :=
  let enriched := ch.map (enrich runAt)
  { st with
    lat := applyLatChunk now st.lat enriched
    snaps := applySnapChunk runId runAt st.snaps enriched }

/-- The committed effect the statements of one ingest transaction declare
(src/server.js lines 286-311): insert the run row, then process every
chunk.  runId is the database-assigned id of the new run and runAt its
canonical run time.  Against the declared schema the ledger statement in
fact errors on every execution (see snapInsertExec / ingestTxnExec
below), so no transaction ever commits; properties proved over this
committed effect therefore hold of the real program a fortiori, a failed
ingest changing nothing. -/
def ingestTxn (runId runAt now : Int) (src : String) (st : DbState)
    (rows : List Row) (chunkSize : ℕ) : DbState :=
  let st1 : DbState := { st with runs := st.runs ++ [⟨runId, runAt, src, rows.length⟩] }
  (chunkArray rows chunkSize).foldl (ingestChunkStep runId runAt now) st1

/-- Number of SQL statements the transaction issues after BEGIN: the run
insert plus two per chunk. -/
def numQueries (rows : List Row) (chunkSize : ℕ) : ℕ :=
  1 + 2 * (chunkArray rows chunkSize).length

/-- The /api/tfs-hours-sync endpoint (src/server.js lines 273-320) as a
state transformer returning (HTTP status, stored state).  oracle k is true
when the k-th SQL statement of the transaction raises (constraint
violation, connection failure, ...): statements run in order and the first
failure aborts, the catch handler rolls the transaction back and answers
500, so a failure among the issued statements leaves the store untouched.
An empty or missing rows array is rejected up front with 400. -/
def ingestEndpoint (oracle : ℕ → Bool) (runId runAt now : Int) (src : String)
    (st : DbState) (rows : List Row) : ℕ × DbState :=
  if rows.isEmpty then (400, st)
  else if (List.range (numQueries rows 200)).any oracle then (500, st)
  else (200, ingestTxn runId runAt now src st rows 200)

/-! ## Faithful execution of the ledger statement against the declared schema

Postgres resolves an explicit ON CONFLICT column list by arbiter-index
inference: the listed columns must be exactly the columns of some unique
index on the table, else the statement raises error 42P10 ("there is no
unique or exclusion constraint matching the ON CONFLICT specification")
before touching any row.  The snapshots table of src/unnamed/part_001
(lines 28-43) declares a single unique constraint, PRIMARY KEY (run_id,
task_id), and only non-unique supporting indexes - nothing matches the
three-column target of buildSnapshotInsert (src/server.js line 261).  So
every execution of the ledger INSERT raises, the catch handler rolls the
whole transaction back, and no ingest ever commits.  The definitions
below model that execution; ingestTxn above models the committed effect
the statements declare (the path C9 and C10 quantify over, whose
conclusions hold of the real program a fortiori because failed ingests
change nothing). -/

/-- The unique constraints of public.tfs_task_hours_snapshots, as column
lists, from src/unnamed/part_001: only PRIMARY KEY (run_id, task_id).
(ix_hours_snap_task_time and ix_hours_snap_time are plain indexes, not
unique, so they can never be arbiters.) -/
def snapshotsUniqueIndexes : List (List String) :=
  [["run_id", "task_id"]]

/-- The conflict target buildSnapshotInsert writes into its statement
(src/server.js line 261). -/
def snapshotsConflictTarget : List String :=
  ["run_id", "task_id", "task_changed_date"]

/-- Executing the ledger INSERT of buildSnapshotInsert: if the conflict
target matched a unique index of the table, the statement would perform
the declared upsert (upsertSnapRow per VALUES row); since it does not,
the statement raises 42P10. -/
def snapInsertExec (tbl : List SnapRow) (entries : List SnapRow) :
    Except String (List SnapRow) :=
  if snapshotsConflictTarget ∈ snapshotsUniqueIndexes then
    Except.ok (entries.foldl upsertSnapRow tbl)
  else Except.error "42P10"

/-- Executing one chunk of the ingest transaction: the projection upsert
succeeds (its arbiter, the latest table's primary key task_id, exists),
then the ledger insert is attempted. -/
def ingestChunkStepExec (runId runAt now : Int) (st : DbState) (ch : List Row) :
    Except String DbState :=
  let enriched := ch.map (enrich runAt)
  let st1 : DbState := { st with lat := applyLatChunk now st.lat enriched }
  match snapInsertExec st1.snaps ((dedupSnap enriched).map (snapRowOf runId runAt)) with
  | Except.error e => Except.error e
  | Except.ok snaps' => Except.ok { st1 with snaps := snaps' }

/-- Executing the chunk loop: statements run in order and the first
failure aborts the transaction. -/
def ingestChunksExec (runId runAt now : Int) : DbState → List (List Row) →
    Except String DbState
  | st, [] => Except.ok st
  | st, ch :: chs =>
    match ingestChunkStepExec runId runAt now st ch with
    | Except.error e => Except.error e
    | Except.ok st' => ingestChunksExec runId runAt now st' chs

/-- Executing the whole ingest transaction (src/server.js lines 286-311)
against the declared schema: run insert, then the chunk loop; an error
from any statement is the transaction's error (the caller rolls back). -/
def ingestTxnExec (runId runAt now : Int) (src : String) (st : DbState)
    (rows : List Row) (chunkSize : ℕ) : Except String DbState :=
  ingestChunksExec runId runAt now
    { st with runs := st.runs ++ [⟨runId, runAt, src, rows.length⟩] }
    (chunkArray rows chunkSize)

/-- The /api/tfs-hours-sync endpoint executed against the declared schema
(data-dependent failures only; connection-level failures are the oracle
of ingestEndpoint): a statement error is caught, the transaction rolled
back, and the caller answered 500 with the store untouched. -/
def ingestEndpointExec (runId runAt now : Int) (src : String) (st : DbState)
    (rows : List Row) : ℕ × DbState :=
  if rows.isEmpty then (400, st)
  else
    match ingestTxnExec runId runAt now src st rows 200 with
    | Except.error _ => (500, st)
    | Except.ok st' => (200, st')

/-! ## The delta-reconstruction query, summary copy

Shallow embedding of the CTE chain of GET /api/hours/summary
(src/server.js lines 447-506).  The chain is per-task throughout (every
window function partitions by task_id), so it is modelled per task:
snaps (collapse), prior, inrange, s/w (order + LAG), d (delta + range
filter + bucket). -/

/-- COALESCE(task_changed_date, snapshot_at), the effective time t. -/
def keyT (r : SnapRow) : Int :=
  r.task_changed_date.getD r.snapshot_at

/-- COALESCE(task_actual_hours, 0), the hours value h. -/
def hoursOf (r : SnapRow) : ℚ :=
  r.task_actual_hours.getD 0

/-- r wins against s under ORDER BY snapshot_at DESC, run_id DESC (strict:
exact ties are not beaten, so the first row encountered survives them,
matching the freedom DISTINCT ON leaves on full ties). -/
def snapsBeats (r s : SnapRow) : Bool :=
  decide (s.snapshot_at < r.snapshot_at ∨
    (s.snapshot_at = r.snapshot_at ∧ s.run_id < r.run_id))

/-- The ledger rows of one (task_id, t) group of the snaps CTE. -/
def summaryGroup (ledger : List SnapRow) (tid : Option Int) (t : Int) : List SnapRow :=
  ledger.filter fun r => decide (r.task_id = tid ∧ keyT r = t)

/-- Selection step of DISTINCT ON: keep the row that wins under the given
strict ordering, the earlier one on an exact tie. -/
def bestBy (beats : SnapRow → SnapRow → Bool) (acc : Option SnapRow) (r : SnapRow) :
    Option SnapRow :=
  match acc with
  | none => some r
  | some a => if beats r a then some r else some a

/-- The row DISTINCT ON (task_id, t) keeps for one group of the snaps CTE
of the summary query (src/server.js lines 448-460): the group row maximal
under ORDER BY snapshot_at DESC, run_id DESC. -/
def summaryPick (ledger : List SnapRow) (tid : Option Int) (t : Int) : Option SnapRow :=
  (summaryGroup ledger tid t).foldl (bestBy snapsBeats) none

/-- The distinct effective times of one task in the ledger. -/
def taskTimes (ledger : List SnapRow) (tid : Option Int) : List Int :=
  ((ledger.filter fun r => decide (r.task_id = tid)).map keyT).dedup

/-- The collapsed observation set of one task: one row per effective time
(the snaps CTE restricted to the task). -/
def summarySnaps (ledger : List SnapRow) (tid : Option Int) : List SnapRow :=
  (taskTimes ledger tid).filterMap (summaryPick ledger tid)

/-- r wins against s under ORDER BY t DESC, snapshot_at DESC (the prior
CTE ordering). -/
def priorBeats (r s : SnapRow) : Bool :=
  decide (keyT s < keyT r ∨ (keyT s = keyT r ∧ s.snapshot_at < r.snapshot_at))

/-- The prior CTE of the summary query (src/server.js lines 461-467): the
single collapsed observation of the task strictly before the window,
latest t first, then latest snapshot time. -/
def summaryPrior (ledger : List SnapRow) (fromMs : Int) (tid : Option Int) : Option SnapRow :=
  ((summarySnaps ledger tid).filter fun r => decide (keyT r < fromMs)).foldl
    (bestBy priorBeats) none

/-- The inrange CTE of the summary query (src/server.js lines 468-473). -/
def summaryInRange (ledger : List SnapRow) (fromMs toMs : Int) (tid : Option Int) : List SnapRow :=
  (summarySnaps ledger tid).filter fun r => decide (fromMs ≤ keyT r ∧ keyT r < toMs)

/-- The window ordering of the w CTE: ORDER BY t, snapshot_at. -/
def wLe (a b : SnapRow) : Prop :=
  keyT a < keyT b ∨ (keyT a = keyT b ∧ a.snapshot_at ≤ b.snapshot_at)

instance : DecidableRel wLe := fun a b => by unfold wLe; infer_instance

/-- The per-task row sequence the w CTE ranges over: the union of the
prior anchor and the in-range rows, in window order (s and w CTEs,
src/server.js lines 474-484). -/
def summaryTaskSeq (ledger : List SnapRow) (fromMs toMs : Int) (tid : Option Int) : List SnapRow :=
  List.insertionSort wLe
    ((summaryPrior ledger fromMs tid).toList ++ summaryInRange ledger fromMs toMs tid)

/-- h - COALESCE(LAG(h), prev) down a row sequence, starting from a given
previous value. -/
def deltasFrom (prev : ℚ) : List SnapRow → List (SnapRow × ℚ)
  | [] => []
  | r :: rs => (r, hoursOf r - prev) :: deltasFrom (hoursOf r) rs

/-- The d CTE of the summary query (src/server.js lines 485-494) restricted
to one task: the LAG deltas (COALESCE(prev_h, 0), so the first row of the
sequence gets its full h as its delta), keeping only in-range rows. -/
def summaryTaskDeltas (ledger : List SnapRow) (fromMs toMs : Int) (tid : Option Int) :
    List (SnapRow × ℚ) :=
  (deltasFrom 0 (summaryTaskSeq ledger fromMs toMs tid)).filter
    fun p => decide (fromMs ≤ keyT p.1 ∧ keyT p.1 < toMs)

/-- The distinct task ids appearing in the ledger. -/
def ledgerTasks (ledger : List SnapRow) : List (Option Int) :=
  (ledger.map (·.task_id)).dedup

/-- The full d CTE of the summary query: bucket, assignee upn, assignee
name, account code and delta of every kept row. -/
def summaryD (u : Bucket) (off : Int) (ledger : List SnapRow) (fromMs toMs : Int) :
    List (Int × Option String × Option String × Option Int × ℚ) :=
  ((ledgerTasks ledger).map fun tid =>
    (summaryTaskDeltas ledger fromMs toMs tid).map fun p =>
      (bucketExpr u (keyT p.1) off, p.1.task_assigned_upn, p.1.task_assigned_to,
        p.1.account_code, p.2)).flatten

/-! ## The delta-reconstruction query, export copy

GET /api/hours/export.csv builds its own SQL (src/server.js lines
737-797); the CTE chain is maintained independently of the summary one, so
it is embedded independently here, from its own source lines. -/

/-- The row DISTINCT ON (task_id, t) keeps for one group of the snaps CTE
of the export query (src/server.js lines 738-750). -/
def exportPick (ledger : List SnapRow) (tid : Option Int) (t : Int) : Option SnapRow :=
  (ledger.filter fun r => decide (r.task_id = tid ∧ keyT r = t)).foldl
    (bestBy snapsBeats) none

/-- The collapsed observation set of one task in the export query. -/
def exportSnaps (ledger : List SnapRow) (tid : Option Int) : List SnapRow :=
  (taskTimes ledger tid).filterMap (exportPick ledger tid)

/-- The prior CTE of the export query (src/server.js lines 751-757). -/
def exportPrior (ledger : List SnapRow) (fromMs : Int) (tid : Option Int) : Option SnapRow :=
  ((exportSnaps ledger tid).filter fun r => decide (keyT r < fromMs)).foldl
    (bestBy priorBeats) none

/-- The inrange CTE of the export query (src/server.js lines 758-763). -/
def exportInRange (ledger : List SnapRow) (fromMs toMs : Int) (tid : Option Int) : List SnapRow :=
  (exportSnaps ledger tid).filter fun r => decide (fromMs ≤ keyT r ∧ keyT r < toMs)

/-- The per-task sequence of the export w CTE (src/server.js lines 764-774). -/
def exportTaskSeq (ledger : List SnapRow) (fromMs toMs : Int) (tid : Option Int) : List SnapRow :=
  List.insertionSort wLe
    ((exportPrior ledger fromMs tid).toList ++ exportInRange ledger fromMs toMs tid)

/-- The d CTE of the export query (src/server.js lines 775-785) restricted
to one task. -/
def exportTaskDeltas (ledger : List SnapRow) (fromMs toMs : Int) (tid : Option Int) :
    List (SnapRow × ℚ) :=
  (deltasFrom 0 (exportTaskSeq ledger fromMs toMs tid)).filter
    fun p => decide (fromMs ≤ keyT p.1 ∧ keyT p.1 < toMs)

/-- The full d CTE of the export query. -/
def exportD (u : Bucket) (off : Int) (ledger : List SnapRow) (fromMs toMs : Int) :
    List (Int × Option String × Option String × Option Int × ℚ) :=
  ((ledgerTasks ledger).map fun tid =>
    (exportTaskDeltas ledger fromMs toMs tid).map fun p =>
      (bucketExpr u (keyT p.1) off, p.1.task_assigned_upn, p.1.task_assigned_to,
        p.1.account_code, p.2)).flatten

/-! ## Auxiliary definitions for stating and checking the claims -/

/-- An empty store. -/
def emptyState : DbState :=
  ⟨[], fun _ => none, []⟩

/-- An ingest row with the fields the claims exercise; every other field
is null. -/
def mkRow (tid tcd : Option Int) (h : Option ℚ) : Row :=
  ⟨tid, none, tcd, none, none, none, h, none, none, none, none, none⟩

/-- A projection row with the fields the claims exercise. -/
def mkLat (tid : Int) (tcd : Option Int) (h : ℚ) : LatRow :=
  ⟨tid, none, tcd, none, none, none, some h, none, none, none, none, 0⟩

/-- A ledger row with the fields the claims exercise. -/
def mkSnap (run snapAt : Int) (tid tcd : Option Int) (h : ℚ) : SnapRow :=
  ⟨run, snapAt, tid, none, none, tcd, none, some h, none, none⟩

/-- The effect of one batch row on the projection when processed on its
own (no in-memory dedup): rows without a valid task id are skipped,
any other row is upserted.  Reference semantics for the chunk-invariance
analysis. -/
def latRowStep (now : Int) (tbl : Lat) (r : Row) : Lat :=
  match r.taskId with
  | none => tbl
  | some tid => upsertLatestRow tbl (latEntryOfRow now tid r)

/-- The upsert decision of buildUpsertLatest at a single task id: the
keyed-contents view of upsertLatestRow. -/
def optStep (o : Option LatRow) (e : LatRow) : Option LatRow :=
  match o with
  | none => some e
  | some old =>
    if sqlLeOpt old.task_changed_date e.task_changed_date then some e else some old

/-- The dedup decision of buildUpsertLatest at a single task id: the
keyed-contents view of dedupLatStep. -/
def dedupStep1 (o : Option Row) (r : Row) : Option Row :=
  match o with
  | none => some r
  | some prev => if latReplaces prev r then some r else some prev

/-- Binary form of the dedup decision. -/
def mxRow (a b : Row) : Row :=
  if latReplaces a b then b else a

/-- Compatibility of two batch rows for chunk-size invariance: whenever
they target the same task id they must carry distinct, non-null changed
dates.  (The counterexample below shows invariance fails without this.) -/
def rowsCompatible (a b : Row) : Prop :=
  a.taskId = b.taskId →
    a.taskChangedDate ≠ none ∧ b.taskChangedDate ≠ none ∧
      a.taskChangedDate ≠ b.taskChangedDate

instance : ∀ a b, Decidable (rowsCompatible a b) := fun a b => by
  unfold rowsCompatible; infer_instance

/-- Unconditional form of rowsCompatible, for rows already known to share
a task id: distinct, non-null changed dates. -/
def rowTcdOk (a b : Row) : Prop :=
  a.taskChangedDate ≠ none ∧ b.taskChangedDate ≠ none ∧
    a.taskChangedDate ≠ b.taskChangedDate

/-! ## Claims about date validation and bucketing (C3, C8) -/

/-- Claim C3: the claim states that from=2024-13-01 (an invalid calendar
month) yields a 4xx validation error with no query executed, and that
range resolution fails whenever either date string does not parse as a
calendar date.  The code disagrees: parseYmd checks only the regex shape,
so month 13 is accepted, and Date.UTC carries the month over into January
2025, so the resolved range is the day 2025-01-01 and the endpoints run
their query.  This theorem evaluates the embedded code at that failing
input. -/
theorem claim3_invalid_month_not_rejected :
    parseYmd "2024-13-01" = some (2024, 13, 1) ∧
    localMidnightToUtcDate "2024-13-01" 0 = some (dateUtcMs 2025 0 1) ∧
    rangeFromToUtc "2024-13-01" "2024-13-01" 0 =
      some (dateUtcMs 2025 0 1, dateUtcMs 2025 0 1 + 86400000) := by
  decide

/-- Claim C8: with report offset -480 minutes and bucket=day, an
observation at 2024-01-02T07:59:00Z is assigned to the local-day bucket
2024-01-01 (the bucket instant is the UTC instant of local midnight of
2024-01-01, exactly what range resolution assigns to that calendar day),
and an observation at 2024-01-02T08:00:00Z to the bucket 2024-01-02;
truncation is applied after shifting by the offset, then shifted back. -/
theorem claim8_bucket_boundary :
    bucketExpr .day (dateUtcMs 2024 0 2 + 479 * 60000) (-480) =
      dateUtcMs 2024 0 1 + 480 * 60000 ∧
    bucketExpr .day (dateUtcMs 2024 0 2 + 480 * 60000) (-480) =
      dateUtcMs 2024 0 2 + 480 * 60000 ∧
    localMidnightToUtcDate "2024-01-01" (-480) = some (dateUtcMs 2024 0 1 + 480 * 60000) ∧
    localMidnightToUtcDate "2024-01-02" (-480) = some (dateUtcMs 2024 0 2 + 480 * 60000) := by
  decide

/-! ## Claim about the ledger upsert key (C2) -/

/-- One chunk's ledger statement always raises 42P10: the conflict target
matches no unique index of the snapshots table. -/
theorem ingestChunkStepExec_error (runId runAt now : Int) (s : DbState) (ch : List Row) :
    ingestChunkStepExec runId runAt now s ch = Except.error "42P10" :=
  rfl

/-- A chunk loop with at least one chunk aborts at its first chunk. -/
theorem ingestChunksExec_cons_error (runId runAt now : Int) (st : DbState)
    (ch : List Row) (chs : List (List Row)) :
    ingestChunksExec runId runAt now st (ch :: chs) = Except.error "42P10" := by
  show (match ingestChunkStepExec runId runAt now st ch with
    | Except.error e => Except.error e
    | Except.ok st' => ingestChunksExec runId runAt now st' chs) = Except.error "42P10"
  rw [ingestChunkStepExec_error]

/-- Every non-empty ingest aborts at its first chunk's ledger insert. -/
theorem ingestTxnExec_error (runId runAt now : Int) (src : String) (st : DbState)
    (rows : List Row) (n : ℕ) (hrows : rows ≠ []) (hn : 0 < n) :
    ingestTxnExec runId runAt now src st rows n = Except.error "42P10" := by
  cases rows with
  | nil => exact absurd rfl hrows
  | cons r rest =>
    show ingestChunksExec runId runAt now _ (chunkArray (r :: rest) n) = _
    have hchunk : chunkArray (r :: rest) n =
        (r :: rest).take n :: chunkArrayGo rest.length ((r :: rest).drop n) n := by
      show (if n = 0 then [] else
        (r :: rest).take n :: chunkArrayGo rest.length ((r :: rest).drop n) n) = _
      rw [if_neg (Nat.pos_iff_ne_zero.mp hn)]
    rw [hchunk]
    exact ingestChunksExec_cons_error runId runAt now _ _ _

/-- Claim C2: the claim states the ledger maintains uniqueness per
(task id, changed-time) by an upsert keyed on that pair.  The code
cannot maintain anything: its conflict target (run_id, task_id,
task_changed_date) matches no unique index of the declared schema (the
snapshots table's only unique constraint is PRIMARY KEY (run_id,
task_id)), so the ledger INSERT raises 42P10 on every execution, the
whole transaction rolls back and the endpoint answers 500 with the store
untouched - no ledger row is ever written, updated or duplicated on any
key.  This theorem evaluates the faithful execution on every non-empty
batch. -/
theorem claim2_ledger_upsert_never_executes (runId runAt now : Int) (src : String)
    (st : DbState) (rows : List Row) (n : ℕ) (hrows : rows ≠ []) (hn : 0 < n) :
    ingestTxnExec runId runAt now src st rows n = Except.error "42P10" ∧
    ingestEndpointExec runId runAt now src st rows = (500, st) := by
  refine ⟨ingestTxnExec_error runId runAt now src st rows n hrows hn, ?_⟩
  unfold ingestEndpointExec
  rw [if_neg (by simp [hrows]),
    ingestTxnExec_error runId runAt now src st rows 200 hrows (by omega)]

/-- Claim C2 witness: ingesting one concrete row into the empty store
errors with 42P10 and stores nothing. -/
theorem claim2_witness :
    ingestTxnExec 1 100 0 "s" emptyState [mkRow (some 1) (some 50) (some 5)] 200 =
      Except.error "42P10" ∧
    ingestEndpointExec 1 100 0 "s" emptyState [mkRow (some 1) (some 50) (some 5)] =
      (500, emptyState) :=
  claim2_ledger_upsert_never_executes 1 100 0 "s" emptyState
    [mkRow (some 1) (some 50) (some 5)] 200 (by simp) (by omega)

/-! ## Claims about the latest-projection upsert (C7, C10) -/

/-- Claim C7: the latest-projection upsert inserts a row if the task is
absent; if a row exists, it updates all fields exactly when the incoming
changedAt is greater or equal to the stored changedAt (the SQL guard
holds exactly when both sides are non-null and ordered), leaves the row
untouched otherwise, and never touches other tasks; there is no error
path (the embedding is a total function). -/
theorem claim7_upsert_latest_policy (tbl : Lat) (e : LatRow) :
    (tbl e.task_id = none →
      upsertLatestRow tbl e = fun tid => if tid = e.task_id then some e else tbl tid) ∧
    ∀ old, tbl e.task_id = some old →
      (upsertLatestRow tbl e) e.task_id =
        some (if sqlLeOpt old.task_changed_date e.task_changed_date then e else old) ∧
      (sqlLeOpt old.task_changed_date e.task_changed_date = true ↔
        ∃ a b, old.task_changed_date = some a ∧ e.task_changed_date = some b ∧ a ≤ b) ∧
      ∀ tid, tid ≠ e.task_id → (upsertLatestRow tbl e) tid = tbl tid := by
  constructor
  · intro h
    funext tid
    unfold upsertLatestRow
    by_cases htid : tid = e.task_id
    · rw [if_pos htid, if_pos htid, h]
    · rw [if_neg htid, if_neg htid]
  · intro old h
    refine ⟨?_, ?_, ?_⟩
    · unfold upsertLatestRow
      rw [if_pos rfl, h]
      exact (apply_ite some _ _ _).symm
    · cases ho : old.task_changed_date with
      | none => cases he : e.task_changed_date <;> simp [sqlLeOpt]
      | some a => cases he : e.task_changed_date <;> simp [sqlLeOpt]
    · intro tid htid
      unfold upsertLatestRow
      rw [if_neg htid]

/-- Claim C7 witness: with stored changed date 5 and incoming changed date
7 the row is replaced. -/
theorem claim7_witness :
    (upsertLatestRow (fun tid => if tid = 1 then some (mkLat 1 (some 5) 2) else none)
        (mkLat 1 (some 7) 3)) 1 =
      some (if sqlLeOpt (some 5) (some 7) then mkLat 1 (some 7) 3 else mkLat 1 (some 5) 2) :=
  ((claim7_upsert_latest_policy _ _).2 (mkLat 1 (some 5) 2) rfl).1

/-- SQL NULL is below nothing: the upsert guard never holds when the
stored changed date is NULL. -/
theorem sqlLeOpt_none_left (b : Option Int) : sqlLeOpt none b = false := by
  cases b <;> rfl

/-- Folding projection upserts never touches a task whose stored row has a
NULL changed date. -/
theorem foldl_upsertLatest_frozen (entries : List LatRow) (tbl : Lat) (tid : Int)
    (old : LatRow) (h1 : tbl tid = some old) (h2 : old.task_changed_date = none) :
    (entries.foldl upsertLatestRow tbl) tid = some old := by
  induction entries generalizing tbl with
  | nil => exact h1
  | cons e es ih =>
    apply ih
    show (if tid = e.task_id then _ else tbl tid) = some old
    by_cases htid : tid = e.task_id
    · rw [if_pos htid, ← htid, h1]
      simp [h2, sqlLeOpt_none_left]
    · rw [if_neg htid]
      exact h1

/-- Chunk processing never touches a task whose stored row has a NULL
changed date. -/
theorem chunks_foldl_frozen (runId runAt now : Int) (chunks : List (List Row))
    (st : DbState) (tid : Int) (old : LatRow) (h1 : st.lat tid = some old)
    (h2 : old.task_changed_date = none) :
    (chunks.foldl (ingestChunkStep runId runAt now) st).lat tid = some old := by
  induction chunks generalizing st with
  | nil => exact h1
  | cons ch chs ih =>
    apply ih
    exact foldl_upsertLatest_frozen _ _ _ _ h1 h2

/-- Claim C10: once the latest projection stores a row with a NULL
task_changed_date, every subsequent ingest leaves that row entirely
unchanged regardless of the incoming changed dates, because the upsert
guard compares against the stored NULL and never holds: the row is frozen
at the ingest interface. -/
theorem claim10_null_changed_date_frozen (runId runAt now : Int) (src : String)
    (st : DbState) (rows : List Row) (n : ℕ) (tid : Int) (old : LatRow)
    (h1 : st.lat tid = some old) (h2 : old.task_changed_date = none) :
    (ingestTxn runId runAt now src st rows n).lat tid = some old := by
  unfold ingestTxn
  exact chunks_foldl_frozen _ _ _ _ _ _ _ h1 h2

/-- Claim C10 witness: a stored row for task 1 with NULL changed date
survives an ingest that reports changed date 99 for task 1. -/
theorem claim10_witness :
    (ingestTxn 1 0 0 "s"
        ⟨[], fun tid => if tid = 1 then some (mkLat 1 none 2) else none, []⟩
        [mkRow (some 1) (some 99) (some 7)] 200).lat 1 = some (mkLat 1 none 2) :=
  claim10_null_changed_date_frozen 1 0 0 "s" _ _ 200 1 (mkLat 1 none 2) rfl rfl

/-! ## Claim about ingest atomicity (C9) -/

/-- Claim C9: for every non-empty ingest request, if any SQL statement
issued after the transaction opens fails (the run insert or any chunk's
projection or ledger write), the whole transaction is rolled back - the
stored state is exactly the pre-ingest state, with no run row, projection
change or ledger row persisting - and the caller receives a 500. -/
theorem claim9_ingest_atomicity (oracle : ℕ → Bool) (runId runAt now : Int)
    (src : String) (st : DbState) (rows : List Row) (hrows : rows ≠ [])
    (hfail : ∃ k, k < numQueries rows 200 ∧ oracle k = true) :
    ingestEndpoint oracle runId runAt now src st rows = (500, st) := by
  obtain ⟨k, hk, ho⟩ := hfail
  unfold ingestEndpoint
  rw [if_neg (by simp [hrows]), if_pos]
  exact List.any_eq_true.mpr ⟨k, List.mem_range.mpr hk, ho⟩

/-- Claim C9 witness: with every statement failing, ingesting one row into
the empty store answers 500 and stores nothing. -/
theorem claim9_witness :
    ingestEndpoint (fun _ => true) 1 0 0 "s" emptyState [mkRow (some 1) (some 5) (some 1)] =
      (500, emptyState) :=
  claim9_ingest_atomicity (fun _ => true) 1 0 0 "s" emptyState _ (by decide)
    ⟨0, by decide, rfl⟩

/-! ## Claim about the collapse tie-break (C6) -/

/-- No row beats itself under the snaps ordering. -/
theorem snapsBeats_irrefl (a : SnapRow) : snapsBeats a a = false := by
  simp [snapsBeats]

/-- Not beating is transitive for the snaps ordering. -/
theorem snapsBeats_neg_trans (x a r : SnapRow) (h1 : snapsBeats x a = false)
    (h2 : snapsBeats a r = false) : snapsBeats x r = false := by
  simp only [snapsBeats, decide_eq_false_iff_not, not_or, not_and, not_lt] at *
  omega

/-- A row beaten by x is itself beaten by anything x does not beat. -/
theorem snapsBeats_dom (a x r : SnapRow) (h1 : snapsBeats x a = true)
    (h2 : snapsBeats x r = false) : snapsBeats a r = false := by
  simp only [snapsBeats, decide_eq_true_eq, decide_eq_false_iff_not, not_or, not_and,
    not_lt] at *
  omega

/-- The DISTINCT ON selection fold yields its accumulator or a list
element. -/
theorem bestBy_fold_mem (beats : SnapRow → SnapRow → Bool) :
    ∀ (l : List SnapRow) (acc : Option SnapRow) (r : SnapRow),
      l.foldl (bestBy beats) acc = some r → acc = some r ∨ r ∈ l := by
  intro l
  induction l with
  | nil => exact fun acc r h => Or.inl h
  | cons x xs ih =>
    intro acc r h
    rcases ih (bestBy beats acc x) r h with h2 | h2
    · cases hacc : acc with
      | none =>
        rw [hacc] at h2
        have hx : x = r := Option.some.inj h2
        exact Or.inr (hx ▸ List.mem_cons_self x xs)
      | some a =>
        rw [hacc] at h2
        by_cases hb : beats x a = true
        · have hx : x = r := Option.some.inj (by simpa [bestBy, hb] using h2)
          exact Or.inr (hx ▸ List.mem_cons_self x xs)
        · have hb' : beats x a = false := by
            cases hc : beats x a
            · rfl
            · exact absurd hc hb
          have : some a = some r := by simpa [bestBy, hb'] using h2
          exact Or.inl (hacc ▸ this)
    · exact Or.inr (List.mem_cons_of_mem _ h2)

/-- The DISTINCT ON selection fold returns a row nothing in the list (nor
the accumulator) beats. -/
theorem bestBy_fold_best (beats : SnapRow → SnapRow → Bool)
    (hirr : ∀ a, beats a a = false)
    (htrans : ∀ x a r, beats x a = false → beats a r = false → beats x r = false)
    (hdom : ∀ a x r, beats x a = true → beats x r = false → beats a r = false) :
    ∀ (l : List SnapRow) (acc : Option SnapRow) (r : SnapRow),
      l.foldl (bestBy beats) acc = some r →
      (∀ s ∈ l, beats s r = false) ∧ (∀ a, acc = some a → beats a r = false) := by
  intro l
  induction l with
  | nil =>
    intro acc r h
    refine ⟨by simp, fun a ha => ?_⟩
    have : a = r := Option.some.inj (ha.symm.trans h)
    exact this ▸ hirr a
  | cons x xs ih =>
    intro acc r h
    obtain ⟨hall, hacc⟩ := ih (bestBy beats acc x) r h
    have hx : beats x r = false := by
      cases h0 : acc with
      | none => exact hacc x (by rw [h0]; rfl)
      | some a =>
        by_cases hb : beats x a = true
        · exact hacc x (by rw [h0]; simp [bestBy, hb])
        · have hb' : beats x a = false := by
            cases hc : beats x a
            · rfl
            · exact absurd hc hb
          have har : beats a r = false := hacc a (by rw [h0]; simp [bestBy, hb'])
          exact htrans x a r hb' har
    refine ⟨fun s hs => ?_, fun a ha => ?_⟩
    · rcases List.mem_cons.mp hs with rfl | hs'
      · exact hx
      · exact hall s hs'
    · by_cases hb : beats x a = true
      · exact hdom a x r hb hx
      · have hb' : beats x a = false := by
          cases hc : beats x a
          · rfl
          · exact absurd hc hb
        exact hacc a (by rw [ha]; simp [bestBy, hb'])

/-- Claim C6 counterexample: in a two-row group for (task 1, time 50), the
row of run 2 exists but the collapse keeps the run-1 row, because its
snapshot time is later: the tie-break is not highest run id first. -/
theorem claim6_counterexample :
    (mkSnap 2 90 (some 1) (some 50) 7) ∈ summaryGroup
        [mkSnap 1 100 (some 1) (some 50) 5, mkSnap 2 90 (some 1) (some 50) 7] (some 1) 50 ∧
    (mkSnap 2 90 (some 1) (some 50) 7).run_id = 2 ∧
    (mkSnap 1 100 (some 1) (some 50) 5).run_id = 1 ∧
    summaryPick [mkSnap 1 100 (some 1) (some 50) 5, mkSnap 2 90 (some 1) (some 50) 7]
        (some 1) 50 = some (mkSnap 1 100 (some 1) (some 50) 5) := by
  decide

/-- Claim C6, amended: when the ledger holds more than one row for the
same (task, effective time), the delta query keeps the version with the
latest snapshot time first, breaking ties by highest run id second (the
ORDER BY of the snaps CTE is snapshot_at DESC, run_id DESC): the kept row
is beaten by no group member under that order. -/
theorem claim6_collapse_tiebreak (ledger : List SnapRow) (tid : Option Int) (t : Int)
    (r : SnapRow) (h : summaryPick ledger tid t = some r) :
    r ∈ summaryGroup ledger tid t ∧
      ∀ s ∈ summaryGroup ledger tid t,
        s.snapshot_at < r.snapshot_at ∨
          (s.snapshot_at = r.snapshot_at ∧ s.run_id ≤ r.run_id) := by
  have hmem := bestBy_fold_mem snapsBeats (summaryGroup ledger tid t) none r h
  have hbest := bestBy_fold_best snapsBeats snapsBeats_irrefl snapsBeats_neg_trans
    snapsBeats_dom (summaryGroup ledger tid t) none r h
  refine ⟨?_, fun s hs => ?_⟩
  · rcases hmem with h2 | h2
    · exact absurd h2 (by simp)
    · exact h2
  · have := hbest.1 s hs
    simp only [snapsBeats, decide_eq_false_iff_not, not_or, not_and, not_lt] at this
    omega

/-- Claim C6 witness: on the two-row group the collapse keeps the
later-snapshot row and it dominates the group. -/
theorem claim6_witness :
    (mkSnap 1 100 (some 1) (some 50) 5) ∈ summaryGroup
        [mkSnap 1 100 (some 1) (some 50) 5, mkSnap 2 90 (some 1) (some 50) 7] (some 1) 50 ∧
    ∀ s ∈ summaryGroup
        [mkSnap 1 100 (some 1) (some 50) 5, mkSnap 2 90 (some 1) (some 50) 7] (some 1) 50,
      s.snapshot_at < (mkSnap 1 100 (some 1) (some 50) 5).snapshot_at ∨
        (s.snapshot_at = (mkSnap 1 100 (some 1) (some 50) 5).snapshot_at ∧
          s.run_id ≤ (mkSnap 1 100 (some 1) (some 50) 5).run_id) :=
  claim6_collapse_tiebreak
    [mkSnap 1 100 (some 1) (some 50) 5, mkSnap 2 90 (some 1) (some 50) 7]
    (some 1) 50 (mkSnap 1 100 (some 1) (some 50) 5) (by decide)

/-! ## Claims about the delta computation (C1, C4) -/

/-- Every row of summaryInRange lies in the half-open window. -/
theorem mem_summaryInRange_bounds (ledger : List SnapRow) (fromMs toMs : Int)
    (tid : Option Int) (r : SnapRow) (h : r ∈ summaryInRange ledger fromMs toMs tid) :
    fromMs ≤ keyT r ∧ keyT r < toMs := by
  have h2 := (List.mem_filter.mp h).2
  simpa using h2

/-- The first component of every LAG pair comes from the row sequence. -/
theorem deltasFrom_mem_fst :
    ∀ (rs : List SnapRow) (prev : ℚ) (x : SnapRow × ℚ), x ∈ deltasFrom prev rs → x.1 ∈ rs := by
  intro rs
  induction rs with
  | nil => intro prev x h; exact absurd h (by simp [deltasFrom])
  | cons r rs' ih =>
    intro prev x h
    rcases List.mem_cons.mp h with rfl | h2
    · exact List.mem_cons_self _ _
    · exact List.mem_cons_of_mem _ (ih (hoursOf r) x h2)

/-- Telescoping: the LAG deltas down a non-empty sequence sum to the last
hours value minus the starting previous value. -/
theorem deltasFrom_sum :
    ∀ (rs : List SnapRow) (prev : ℚ) (h : rs ≠ []),
      ((deltasFrom prev rs).map Prod.snd).sum = hoursOf (rs.getLast h) - prev := by
  intro rs
  induction rs with
  | nil => intro prev h; exact absurd rfl h
  | cons r rs' ih =>
    intro prev h
    cases rs' with
    | nil => simp [deltasFrom]
    | cons y ys =>
      have hne : y :: ys ≠ [] := by simp
      rw [List.getLast_cons hne,
        show deltasFrom prev (r :: y :: ys) =
          (r, hoursOf r - prev) :: deltasFrom (hoursOf r) (y :: ys) from rfl,
        List.map_cons, List.sum_cons, ih (hoursOf r) hne]
      ring

/-- Claim C1 counterexample: a task whose first-ever observation (hours 5)
falls inside the window with no prior anchor gets delta 5 - the full
value - in the summary path, not 0 as the claim states; the export path
agrees on 5. -/
theorem claim1_counterexample :
    summaryTaskDeltas [mkSnap 1 10 (some 1) (some 20) 5] 15 100 (some 1) =
      [(mkSnap 1 10 (some 1) (some 20) 5, 5)] ∧
    exportTaskDeltas [mkSnap 1 10 (some 1) (some 20) 5] 15 100 (some 1) =
      [(mkSnap 1 10 (some 1) (some 20) 5, 5)] ∧
    (5 : ℚ) ≠ 0 := by
  have h1 : summaryTaskDeltas [mkSnap 1 10 (some 1) (some 20) 5] 15 100 (some 1) =
      [(mkSnap 1 10 (some 1) (some 20) 5,
        hoursOf (mkSnap 1 10 (some 1) (some 20) 5) - 0)] := rfl
  have h2 : hoursOf (mkSnap 1 10 (some 1) (some 20) 5) - 0 = 5 := by
    norm_num [hoursOf, mkSnap]
  refine ⟨?_, ?_, by norm_num⟩
  · rw [h1, h2]
  · rw [show exportTaskDeltas [mkSnap 1 10 (some 1) (some 20) 5] 15 100 (some 1) =
        summaryTaskDeltas [mkSnap 1 10 (some 1) (some 20) 5] 15 100 (some 1) from rfl,
      h1, h2]

/-- Claim C1, amended: the summary/live and CSV export delta computations
are identical - for every ledger, window and task the d-stage rows agree -
and for a task whose first-ever observation falls in the window with no
prior anchor, both paths compute that observation's delta as its full
hours value (h - COALESCE(NULL, 0) = h), not 0. -/
theorem claim1_first_observation_full_value (ledger : List SnapRow) (fromMs toMs : Int)
    (tid : Option Int) :
    summaryTaskDeltas ledger fromMs toMs tid = exportTaskDeltas ledger fromMs toMs tid ∧
    ∀ p rs, summaryPrior ledger fromMs tid = none →
      summaryTaskSeq ledger fromMs toMs tid = p :: rs →
      (summaryTaskDeltas ledger fromMs toMs tid).head? = some (p, hoursOf p) := by
  constructor
  · rfl
  · intro p rs hprior hseq
    have hperm : (p :: rs).Perm
        ((summaryPrior ledger fromMs tid).toList ++ summaryInRange ledger fromMs toMs tid) :=
      hseq ▸ List.perm_insertionSort wLe _
    rw [hprior] at hperm
    simp only [Option.toList_none, List.nil_append] at hperm
    have hpin : p ∈ summaryInRange ledger fromMs toMs tid :=
      hperm.mem_iff.mp (List.mem_cons_self p rs)
    have hpb := mem_summaryInRange_bounds ledger fromMs toMs tid p hpin
    unfold summaryTaskDeltas
    rw [hseq]
    simp only [deltasFrom, List.filter_cons]
    rw [if_pos (by simpa using hpb)]
    simp

/-- Claim C1 witness: on a one-observation ledger the head delta is the
full hours value. -/
theorem claim1_witness :
    (summaryTaskDeltas [mkSnap 1 10 (some 1) (some 20) 5] 15 100 (some 1)).head? =
      some (mkSnap 1 10 (some 1) (some 20) 5, hoursOf (mkSnap 1 10 (some 1) (some 20) 5)) :=
  (claim1_first_observation_full_value [mkSnap 1 10 (some 1) (some 20) 5] 15 100 (some 1)).2
    (mkSnap 1 10 (some 1) (some 20) 5) [] (by decide) (by decide)

/-- Claim C4: for every task whose collapsed per-window sequence is the
prior anchor h0 (strictly before the window) followed by the in-range
observations h1..hn, the sum of the deltas computed for the in-range
observations equals hn - h0 (deltas live in the rationals, so corrections
make individual deltas negative without affecting the identity). -/
theorem claim4_telescoping (ledger : List SnapRow) (fromMs toMs : Int) (tid : Option Int)
    (p : SnapRow) (rs : List SnapRow)
    (hseq : summaryTaskSeq ledger fromMs toMs tid = p :: rs)
    (hp : keyT p < fromMs) (hrs : rs ≠ []) :
    ((summaryTaskDeltas ledger fromMs toMs tid).map Prod.snd).sum =
      hoursOf (rs.getLast hrs) - hoursOf p := by
  have hperm : (p :: rs).Perm
      ((summaryPrior ledger fromMs tid).toList ++ summaryInRange ledger fromMs toMs tid) :=
    hseq ▸ List.perm_insertionSort wLe _
  have hpnot : p ∉ summaryInRange ledger fromMs toMs tid := fun hmem =>
    absurd (mem_summaryInRange_bounds ledger fromMs toMs tid p hmem).1 (not_le.mpr hp)
  cases hprior : summaryPrior ledger fromMs tid with
  | none =>
    rw [hprior] at hperm
    simp only [Option.toList_none, List.nil_append] at hperm
    exact absurd (hperm.mem_iff.mp (List.mem_cons_self p rs)) hpnot
  | some q =>
    rw [hprior] at hperm
    simp only [Option.toList_some, List.singleton_append] at hperm
    have hpq : p = q := by
      rcases List.mem_cons.mp (hperm.mem_iff.mp (List.mem_cons_self p rs)) with h2 | h2
      · exact h2
      · exact absurd h2 hpnot
    subst hpq
    have hrsperm : rs.Perm (summaryInRange ledger fromMs toMs tid) := hperm.cons_inv
    have hrsin : ∀ r ∈ rs, fromMs ≤ keyT r ∧ keyT r < toMs := fun r hr =>
      mem_summaryInRange_bounds ledger fromMs toMs tid r (hrsperm.mem_iff.mp hr)
    unfold summaryTaskDeltas
    rw [hseq]
    simp only [deltasFrom, List.filter_cons]
    rw [if_neg (by simp [not_le.mpr hp])]
    rw [List.filter_eq_self.mpr]
    · exact deltasFrom_sum rs (hoursOf p) hrs
    · intro x hx
      have := hrsin x.1 (deltasFrom_mem_fst rs (hoursOf p) x hx)
      simpa using this

/-- Claim C4 witness: prior anchor 10 before the window, in-range
observations 15 then 8: the deltas +5 and -7 sum to 8 - 10 = -2. -/
theorem claim4_witness :
    ((summaryTaskDeltas
        [mkSnap 1 10 (some 1) (some 5) 10, mkSnap 1 10 (some 1) (some 20) 15,
          mkSnap 1 10 (some 1) (some 30) 8] 15 100 (some 1)).map Prod.snd).sum =
      hoursOf (mkSnap 1 10 (some 1) (some 30) 8) - hoursOf (mkSnap 1 10 (some 1) (some 5) 10) :=
  claim4_telescoping
    [mkSnap 1 10 (some 1) (some 5) 10, mkSnap 1 10 (some 1) (some 20) 15,
      mkSnap 1 10 (some 1) (some 30) 8] 15 100 (some 1)
    (mkSnap 1 10 (some 1) (some 5) 10)
    [mkSnap 1 10 (some 1) (some 20) 15, mkSnap 1 10 (some 1) (some 30) 8]
    (by decide) (by decide) (by decide)

/-! ## Claim C5: chunking and stored results

Against the declared schema every non-empty ingest aborts at its first
chunk's ledger insert (42P10, see snapInsertExec), identically for every
chunk size - so chunk boundaries never affect stored results and the
claim holds of the real program, degenerately.  The bulk of this section
analyses the would-be semantics of the committed effect (ingestTxn),
i.e. what chunking would do once the arbiter index existed: there chunk
boundaries DO matter when a (task id, changedDate) pair repeats
(ingestTxn_chunk_divergence below), and invariance needs per-task
distinct non-null changed dates (ingestTxn_chunk_invariance).
Infrastructure first: chunking facts, dedup facts, and the pointwise
analysis of the projection upsert. -/

/-- Chunks rebuild the original batch. -/
theorem chunkArrayGo_flatten (n : ℕ) (hn : 0 < n) :
    ∀ (fuel : ℕ) (l : List α), l.length ≤ fuel → (chunkArrayGo fuel l n).flatten = l := by
  intro fuel
  induction fuel with
  | zero =>
    intro l hl
    rw [Nat.le_zero, List.length_eq_zero] at hl
    subst hl
    rfl
  | succ fuel ih =>
    intro l hl
    cases l with
    | nil => rfl
    | cons a t =>
      show (List.flatten (if n = 0 then [] else
        (a :: t).take n :: chunkArrayGo fuel ((a :: t).drop n) n)) = a :: t
      rw [if_neg (Nat.pos_iff_ne_zero.mp hn)]
      have hl' : t.length + 1 ≤ fuel + 1 := by simpa using hl
      have hd : ((a :: t).drop n).length ≤ fuel := by
        rw [List.length_drop]
        simp only [List.length_cons]
        omega
      rw [List.flatten_cons, ih ((a :: t).drop n) hd]
      exact List.take_append_drop n (a :: t)

/-- Chunks rebuild the original batch. -/
theorem chunkArray_flatten (l : List α) (n : ℕ) (hn : 0 < n) :
    (chunkArray l n).flatten = l :=
  chunkArrayGo_flatten n hn l.length l le_rfl

/-- Every chunk is a sublist of the batch. -/
theorem chunkArrayGo_mem_sublist (n : ℕ) :
    ∀ (fuel : ℕ) (l ch : List α), ch ∈ chunkArrayGo fuel l n → ch.Sublist l := by
  intro fuel
  induction fuel with
  | zero =>
    intro l ch h
    cases l with
    | nil => exact absurd h (by simp [chunkArrayGo])
    | cons a t => exact absurd h (by simp [chunkArrayGo])
  | succ fuel ih =>
    intro l ch h
    cases l with
    | nil => exact absurd h (by simp [chunkArrayGo])
    | cons a t =>
      rw [show chunkArrayGo (fuel + 1) (a :: t) n = (if n = 0 then [] else
        (a :: t).take n :: chunkArrayGo fuel ((a :: t).drop n) n) from rfl] at h
      by_cases hn : n = 0
      · rw [if_pos hn] at h
        exact absurd h (List.not_mem_nil ch)
      · rw [if_neg hn] at h
        rcases List.mem_cons.mp h with rfl | h2
        · exact List.take_sublist n (a :: t)
        · exact (ih _ ch h2).trans (List.drop_sublist n (a :: t))

/-- Every chunk is a sublist of the batch. -/
theorem chunkArray_mem_sublist (l ch : List α) (n : ℕ) (h : ch ∈ chunkArray l n) :
    ch.Sublist l :=
  chunkArrayGo_mem_sublist n l.length l ch h

/-- The seen-set dedup is the identity on key-distinct row lists. -/
theorem dedupSnapGo_eq_self :
    ∀ (rows : List Row) (seen : List (Option Int × Option Int)),
      (rows.map snapKey).Nodup → (∀ r ∈ rows, snapKey r ∉ seen) →
      dedupSnapGo seen rows = rows := by
  intro rows
  induction rows with
  | nil => intros; rfl
  | cons r rs ih =>
    intro seen hnd hseen
    rw [List.map_cons, List.nodup_cons] at hnd
    show (if snapKey r ∈ seen then dedupSnapGo seen rs
      else r :: dedupSnapGo (snapKey r :: seen) rs) = r :: rs
    rw [if_neg (hseen r (List.mem_cons_self r rs))]
    rw [ih (snapKey r :: seen) hnd.2]
    intro s hs
    rw [List.mem_cons]
    rintro (h | h)
    · exact hnd.1 (h ▸ List.mem_map_of_mem snapKey hs)
    · exact hseen s (List.mem_cons_of_mem r hs) h

/-- The ledger-write dedup is the identity on key-distinct batches. -/
theorem dedupSnap_eq_self (rows : List Row) (h : (rows.map snapKey).Nodup) :
    dedupSnap rows = rows :=
  dedupSnapGo_eq_self rows [] h (by simp)

/-- Compatible rows have distinct ledger-dedup keys. -/
theorem pairwise_snapKey_nodup (l : List Row) (H : l.Pairwise rowsCompatible) :
    (l.map snapKey).Nodup := by
  refine List.Pairwise.map snapKey ?_ H
  intro a b hab he
  have h1 : a.taskId = b.taskId := congrArg Prod.fst he
  have h2 : a.taskChangedDate = b.taskChangedDate := congrArg Prod.snd he
  exact (hab h1).2.2 h2

/-- Enrichment only touches syncedAtUtc, so it preserves compatibility. -/
theorem enrich_pairwise (runAt : Int) (l : List Row) (H : l.Pairwise rowsCompatible) :
    (l.map (enrich runAt)).Pairwise rowsCompatible := by
  refine List.Pairwise.map (enrich runAt) ?_ H
  intro a b hab
  exact hab

/-! Association-list facts for the in-memory dedup map. -/

/-- Setting then looking up the same key. -/
theorem mapLookup_mapSet_self :
    ∀ (m : List (Int × Row)) (k : Int) (v : Row), mapLookup (mapSet m k v) k = some v := by
  intro m
  induction m with
  | nil => intro k v; simp [mapSet, mapLookup]
  | cons p m' ih =>
    intro k v
    by_cases h : p.1 = k
    · simp [mapSet, mapLookup, h]
    · show mapLookup (if p.1 = k then (k, v) :: m' else (p.1, p.2) :: mapSet m' k v) k = some v
      rw [if_neg h]
      show (if p.1 = k then some p.2 else mapLookup (mapSet m' k v) k) = some v
      rw [if_neg h]
      exact ih k v

/-- Setting one key leaves lookups of other keys unchanged. -/
theorem mapLookup_mapSet_ne :
    ∀ (m : List (Int × Row)) (k k' : Int) (v : Row), k' ≠ k →
      mapLookup (mapSet m k v) k' = mapLookup m k' := by
  intro m
  induction m with
  | nil =>
    intro k k' v h
    show (if k = k' then some v else none) = none
    rw [if_neg (fun hh => h hh.symm)]
  | cons p m' ih =>
    intro k k' v h
    show mapLookup (if p.1 = k then (k, v) :: m' else (p.1, p.2) :: mapSet m' k v) k' = _
    by_cases hp : p.1 = k
    · rw [if_pos hp]
      show (if k = k' then some v else mapLookup m' k') = (if p.1 = k' then some p.2 else mapLookup m' k')
      rw [if_neg (fun hh => h hh.symm), if_neg (by rw [hp]; exact fun hh => h hh.symm)]
    · rw [if_neg hp]
      show (if p.1 = k' then some p.2 else mapLookup (mapSet m' k v) k') = _
      by_cases hq : p.1 = k'
      · rw [if_pos hq]
        show _ = (if p.1 = k' then some p.2 else mapLookup m' k')
        rw [if_pos hq]
      · rw [if_neg hq]
        show _ = (if p.1 = k' then some p.2 else mapLookup m' k')
        rw [if_neg hq]
        exact ih k k' v h

/-- Keys present after a set. -/
theorem mem_keys_mapSet :
    ∀ (m : List (Int × Row)) (k x : Int) (v : Row),
      x ∈ (mapSet m k v).map Prod.fst → x ∈ m.map Prod.fst ∨ x = k := by
  intro m
  induction m with
  | nil =>
    intro k x v h
    simp [mapSet] at h
    exact Or.inr h
  | cons p m' ih =>
    obtain ⟨k', v'⟩ := p
    intro k x v h
    have hm : mapSet ((k', v') :: m') k v =
        if k' = k then (k, v) :: m' else (k', v') :: mapSet m' k v := rfl
    rw [hm] at h
    by_cases hp : k' = k
    · rw [if_pos hp] at h
      rw [List.map_cons, List.mem_cons] at h
      rcases h with h | h
      · exact Or.inr h
      · exact Or.inl (by rw [List.map_cons, List.mem_cons]; exact Or.inr h)
    · rw [if_neg hp] at h
      rw [List.map_cons, List.mem_cons] at h
      rcases h with h | h
      · exact Or.inl (by rw [List.map_cons, List.mem_cons]; exact Or.inl h)
      · rcases ih k x v h with h2 | h2
        · exact Or.inl (by rw [List.map_cons, List.mem_cons]; exact Or.inr h2)
        · exact Or.inr h2

/-- Setting preserves key distinctness. -/
theorem mapSet_keys_nodup :
    ∀ (m : List (Int × Row)) (k : Int) (v : Row),
      (m.map Prod.fst).Nodup → ((mapSet m k v).map Prod.fst).Nodup := by
  intro m
  induction m with
  | nil => intro k v _; simp [mapSet]
  | cons p m' ih =>
    obtain ⟨k', v'⟩ := p
    intro k v hnd
    rw [List.map_cons, List.nodup_cons] at hnd
    have hm : mapSet ((k', v') :: m') k v =
        if k' = k then (k, v) :: m' else (k', v') :: mapSet m' k v := rfl
    rw [hm]
    by_cases hp : k' = k
    · rw [if_pos hp, List.map_cons, List.nodup_cons]
      exact ⟨hp ▸ hnd.1, hnd.2⟩
    · rw [if_neg hp, List.map_cons, List.nodup_cons]
      refine ⟨fun hmem => ?_, ih k v hnd.2⟩
      rcases mem_keys_mapSet m' k k' v hmem with h2 | h2
      · exact hnd.1 h2
      · exact hp h2

/-- Lookup misses keys that are absent. -/
theorem mapLookup_eq_none_of_not_mem :
    ∀ (m : List (Int × Row)) (k : Int), k ∉ m.map Prod.fst → mapLookup m k = none := by
  intro m
  induction m with
  | nil => intros; rfl
  | cons p m' ih =>
    obtain ⟨k', v'⟩ := p
    intro k h
    rw [List.map_cons, List.mem_cons, not_or] at h
    show (if k' = k then some v' else mapLookup m' k) = none
    rw [if_neg (fun hh => h.1 hh.symm)]
    exact ih k h.2

/-- On a key-distinct association list, filtering by a key that misses
yields nothing. -/
theorem filter_key_of_lookup_none (tid : Int) :
    ∀ (m : List (Int × Row)), (m.map Prod.fst).Nodup → mapLookup m tid = none →
      m.filter (fun p => decide (p.1 = tid)) = [] := by
  intro m
  induction m with
  | nil => intros; rfl
  | cons p m' ih =>
    obtain ⟨k', v'⟩ := p
    intro hnd hlk
    rw [List.map_cons, List.nodup_cons] at hnd
    have hlk' : (if k' = tid then some v' else mapLookup m' tid) = none := hlk
    by_cases hk : k' = tid
    · rw [if_pos hk] at hlk'
      exact absurd hlk' (by simp)
    · rw [if_neg hk] at hlk'
      rw [List.filter_cons, if_neg (by simpa using hk)]
      exact ih hnd.2 hlk'

/-- On a key-distinct association list, filtering by a key that hits
yields exactly the stored pair. -/
theorem filter_key_of_lookup_some (tid : Int) :
    ∀ (m : List (Int × Row)) (v : Row), (m.map Prod.fst).Nodup →
      mapLookup m tid = some v →
      m.filter (fun p => decide (p.1 = tid)) = [(tid, v)] := by
  intro m
  induction m with
  | nil => intro v _ h; exact absurd h (by simp [mapLookup])
  | cons p m' ih =>
    obtain ⟨k', v'⟩ := p
    intro v hnd hlk
    rw [List.map_cons, List.nodup_cons] at hnd
    have hlk' : (if k' = tid then some v' else mapLookup m' tid) = some v := hlk
    by_cases hk : k' = tid
    · rw [if_pos hk] at hlk'
      have hv : v' = v := Option.some.inj hlk'
      subst hv
      subst hk
      rw [List.filter_cons, if_pos (by simp)]
      rw [filter_key_of_lookup_none k' m' hnd.2 (mapLookup_eq_none_of_not_mem m' k' hnd.1)]
    · rw [if_neg hk] at hlk'
      rw [List.filter_cons, if_neg (by simpa using hk)]
      exact ih v hnd.2 hlk'

/-- Rewriting the normalising spread of the dedup when the task id is
already the key. -/
theorem row_set_taskId_self (r : Row) (tid : Int) (h : r.taskId = some tid) :
    ({ r with taskId := some tid } : Row) = r := by
  cases r
  simp only at h
  subst h
  rfl

/-- A sequence of projection upserts, observed at one task id, is the
fold of the per-key decision over the entries that target that id. -/
theorem lookup_foldl_upsert :
    ∀ (entries : List LatRow) (tbl : Lat) (tid : Int),
      (entries.foldl upsertLatestRow tbl) tid =
        (entries.filter fun e => decide (e.task_id = tid)).foldl optStep (tbl tid) := by
  intro entries
  induction entries with
  | nil => intros; rfl
  | cons e es ih =>
    intro tbl tid
    rw [List.foldl_cons, ih, List.filter_cons]
    by_cases h : e.task_id = tid
    · rw [if_pos (by simpa using h), List.foldl_cons]
      congr 1
      show (if tid = e.task_id then _ else tbl tid) = optStep (tbl tid) e
      rw [if_pos h.symm, h]
      cases tbl tid <;> rfl
    · rw [if_neg (by simpa using h)]
      congr 1
      show (if tid = e.task_id then _ else tbl tid) = tbl tid
      rw [if_neg (fun hh => h hh.symm)]

/-- Row-by-row processing, observed at one task id, is the fold of the
per-key decision over the rows that target that id. -/
theorem lookup_foldl_latRowStep (now : Int) :
    ∀ (ch : List Row) (tbl : Lat) (tid : Int),
      (ch.foldl (latRowStep now) tbl) tid =
        (ch.filter fun r => decide (r.taskId = some tid)).foldl
          (fun o r => optStep o (latEntryOfRow now tid r)) (tbl tid) := by
  intro ch
  induction ch with
  | nil => intros; rfl
  | cons r rs ih =>
    intro tbl tid
    rw [List.foldl_cons, ih, List.filter_cons]
    cases hr : r.taskId with
    | none =>
      rw [if_neg (by simp [hr])]
      congr 1
      show (latRowStep now tbl r) tid = tbl tid
      simp [latRowStep, hr]
    | some tid' =>
      by_cases h : tid' = tid
      · subst h
        rw [if_pos (by simp [hr]), List.foldl_cons]
        congr 1
        show (latRowStep now tbl r) tid' = optStep (tbl tid') (latEntryOfRow now tid' r)
        simp only [latRowStep, hr]
        show (if tid' = (latEntryOfRow now tid' r).task_id then _ else tbl tid') = _
        rw [if_pos (show tid' = (latEntryOfRow now tid' r).task_id from rfl)]
        show (match tbl tid' with
          | none => some (latEntryOfRow now tid' r)
          | some old => if sqlLeOpt old.task_changed_date
              (latEntryOfRow now tid' r).task_changed_date then
              some (latEntryOfRow now tid' r) else some old) = _
        cases tbl tid' <;> rfl
      · rw [if_neg (by simp [hr, h])]
        congr 1
        show (latRowStep now tbl r) tid = tbl tid
        simp only [latRowStep, hr]
        show (if tid = (latEntryOfRow now tid' r).task_id then _ else tbl tid) = tbl tid
        rw [if_neg (fun hh => h ((show (latEntryOfRow now tid' r).task_id = tid' from rfl) ▸
          hh).symm)]

/-- The in-memory dedup map, observed at one task id, is the fold of the
per-key dedup decision over the rows that target that id. -/
theorem mapLookup_foldl_dedupLatStep :
    ∀ (ch : List Row) (m : List (Int × Row)) (tid : Int),
      mapLookup (ch.foldl dedupLatStep m) tid =
        (ch.filter fun r => decide (r.taskId = some tid)).foldl dedupStep1 (mapLookup m tid) := by
  intro ch
  induction ch with
  | nil => intros; rfl
  | cons r rs ih =>
    intro m tid
    rw [List.foldl_cons, ih, List.filter_cons]
    cases hr : r.taskId with
    | none =>
      rw [if_neg (by simp [hr])]
      congr 1
      show mapLookup (dedupLatStep m r) tid = mapLookup m tid
      simp [dedupLatStep, hr]
    | some tid' =>
      have hset : ({ r with taskId := some tid' } : Row) = r := row_set_taskId_self r tid' hr
      by_cases h : tid' = tid
      · subst h
        rw [if_pos (by simp [hr]), List.foldl_cons]
        congr 1
        show mapLookup (dedupLatStep m r) tid' = dedupStep1 (mapLookup m tid') r
        simp only [dedupLatStep, hr, hset]
        cases hm : mapLookup m tid' with
        | none =>
          show mapLookup (mapSet m tid' r) tid' = dedupStep1 none r
          rw [mapLookup_mapSet_self]
          rfl
        | some prev =>
          show mapLookup (if latReplaces prev r = true then mapSet m tid' r else m) tid' =
            dedupStep1 (some prev) r
          show mapLookup (if latReplaces prev r = true then mapSet m tid' r else m) tid' =
            (if latReplaces prev r = true then some r else some prev)
          by_cases hrep : latReplaces prev r = true
          · rw [if_pos hrep, if_pos hrep, mapLookup_mapSet_self]
          · rw [if_neg hrep, if_neg hrep, hm]
      · rw [if_neg (by simp [hr, h])]
        congr 1
        show mapLookup (dedupLatStep m r) tid = mapLookup m tid
        simp only [dedupLatStep, hr, hset]
        cases hm : mapLookup m tid' with
        | none => exact mapLookup_mapSet_ne m tid' tid r (fun hh => h hh.symm)
        | some prev =>
          show mapLookup (if latReplaces prev r = true then mapSet m tid' r else m) tid =
            mapLookup m tid
          by_cases hrep : latReplaces prev r = true
          · rw [if_pos hrep]
            exact mapLookup_mapSet_ne m tid' tid r (fun hh => h hh.symm)
          · rw [if_neg hrep]

/-- The dedup map built from an empty map has distinct keys. -/
theorem dedupLat_keys_nodup :
    ∀ (ch : List Row) (m : List (Int × Row)), (m.map Prod.fst).Nodup →
      ((ch.foldl dedupLatStep m).map Prod.fst).Nodup := by
  intro ch
  induction ch with
  | nil => intro m h; exact h
  | cons r rs ih =>
    intro m h
    rw [List.foldl_cons]
    apply ih
    cases hr : r.taskId with
    | none => simpa [dedupLatStep, hr] using h
    | some tid =>
      have hset : ({ r with taskId := some tid } : Row) = r := row_set_taskId_self r tid hr
      simp only [dedupLatStep, hr, hset]
      cases hm : mapLookup m tid with
      | none => exact mapSet_keys_nodup m tid _ h
      | some prev =>
        show ((if latReplaces prev r = true then mapSet m tid r else m).map Prod.fst).Nodup
        by_cases hrep : latReplaces prev r = true
        · rw [if_pos hrep]
          exact mapSet_keys_nodup m tid _ h
        · rw [if_neg hrep]
          exact h

/-- Folding the per-key dedup decision from a seeded value computes the
binary-max fold. -/
theorem foldl_dedupStep1_some :
    ∀ (rs : List Row) (a : Row), rs.foldl dedupStep1 (some a) = some (rs.foldl mxRow a) := by
  intro rs
  induction rs with
  | nil => intros; rfl
  | cons r rs' ih =>
    intro a
    rw [List.foldl_cons, List.foldl_cons]
    rw [show dedupStep1 (some a) r = some (mxRow a r) from by
      show (if latReplaces a r = true then some r else some a) = some (mxRow a r)
      unfold mxRow
      by_cases h : latReplaces a r = true
      · rw [if_pos h, if_pos h]
      · rw [if_neg h, if_neg h]]
    exact ih (mxRow a r)

/-- Two successive upsert decisions against the same key with distinct,
non-null changed dates collapse to a single decision for the later-dated
entry (the projective heart of chunk invariance). -/
theorem optStep_swap (o : Option LatRow) (a b : LatRow) (ta tb : Int)
    (hta : a.task_changed_date = some ta) (htb : b.task_changed_date = some tb)
    (hne : ta ≠ tb) :
    optStep (optStep o a) b = optStep o (if ta < tb then b else a) := by
  cases o with
  | none =>
    show optStep (some a) b = optStep none (if ta < tb then b else a)
    by_cases h2 : ta < tb
    · rw [if_pos h2]
      show (if sqlLeOpt a.task_changed_date b.task_changed_date then some b else some a) =
        some b
      rw [hta, htb]
      simp [sqlLeOpt, le_of_lt h2]
    · rw [if_neg h2]
      show (if sqlLeOpt a.task_changed_date b.task_changed_date then some b else some a) =
        some a
      rw [hta, htb]
      simp only [sqlLeOpt]
      rw [if_neg (by simp; omega)]
  | some old =>
    cases hc : old.task_changed_date with
    | none =>
      have h1 : ∀ x : LatRow, optStep (some old) x = some old := fun x => by
        show (if sqlLeOpt old.task_changed_date x.task_changed_date then some x
          else some old) = some old
        rw [hc, sqlLeOpt_none_left]
        rfl
      rw [h1 a, h1 b, h1 (if ta < tb then b else a)]
    | some tc =>
      by_cases h1 : tc ≤ ta
      · have ea : optStep (some old) a = some a := by
          show (if sqlLeOpt old.task_changed_date a.task_changed_date then some a
            else some old) = some a
          rw [hc, hta, if_pos (show sqlLeOpt (some tc) (some ta) = true by
            simp [sqlLeOpt]; omega)]
        rw [ea]
        by_cases h2 : ta < tb
        · have eb : optStep (some a) b = some b := by
            show (if sqlLeOpt a.task_changed_date b.task_changed_date then some b
              else some a) = some b
            rw [hta, htb, if_pos (show sqlLeOpt (some ta) (some tb) = true by
              simp [sqlLeOpt]; omega)]
          have eb2 : optStep (some old) b = some b := by
            show (if sqlLeOpt old.task_changed_date b.task_changed_date then some b
              else some old) = some b
            rw [hc, htb, if_pos (show sqlLeOpt (some tc) (some tb) = true by
              simp [sqlLeOpt]; omega)]
          rw [eb, if_pos h2, eb2]
        · have eb : optStep (some a) b = some a := by
            show (if sqlLeOpt a.task_changed_date b.task_changed_date then some b
              else some a) = some a
            rw [hta, htb, if_neg (show ¬ sqlLeOpt (some ta) (some tb) = true by
              simp [sqlLeOpt]; omega)]
          rw [eb, if_neg h2, ea]
      · have ea : optStep (some old) a = some old := by
          show (if sqlLeOpt old.task_changed_date a.task_changed_date then some a
            else some old) = some old
          rw [hc, hta, if_neg (show ¬ sqlLeOpt (some tc) (some ta) = true by
            simp [sqlLeOpt]; omega)]
        rw [ea]
        by_cases h2 : ta < tb
        · rw [if_pos h2]
        · have eb : optStep (some old) b = some old := by
            show (if sqlLeOpt old.task_changed_date b.task_changed_date then some b
              else some old) = some old
            rw [hc, htb, if_neg (show ¬ sqlLeOpt (some tc) (some tb) = true by
              simp [sqlLeOpt]; omega)]
          rw [eb, if_neg h2, ea]

/-- Folding the per-key upsert decision over same-task rows with distinct
non-null changed dates equals a single decision for the dedup-selected
row: the in-memory dedup of buildUpsertLatest is semantically invisible
for such rows. -/
theorem core_aux (now : Int) (tid : Int) :
    ∀ (rs : List Row) (r : Row) (o : Option LatRow),
      (r :: rs).Pairwise rowTcdOk →
      rs.foldl (fun o x => optStep o (latEntryOfRow now tid x))
          (optStep o (latEntryOfRow now tid r)) =
        optStep o (latEntryOfRow now tid (rs.foldl mxRow r)) := by
  intro rs
  induction rs with
  | nil => intros; rfl
  | cons x rs' ih =>
    intro r o hpw
    obtain ⟨hr, hpw'⟩ := List.pairwise_cons.mp hpw
    have hrx := hr x (List.mem_cons_self x rs')
    obtain ⟨ta, hta⟩ := Option.ne_none_iff_exists'.mp hrx.1
    obtain ⟨tb, htb⟩ := Option.ne_none_iff_exists'.mp hrx.2.1
    have hne : ta ≠ tb := fun he => hrx.2.2 (by rw [hta, htb, he])
    rw [List.foldl_cons]
    rw [optStep_swap o (latEntryOfRow now tid r) (latEntryOfRow now tid x) ta tb hta htb hne]
    have hmx : (if ta < tb then latEntryOfRow now tid x else latEntryOfRow now tid r) =
        latEntryOfRow now tid (mxRow r x) := by
      unfold mxRow
      by_cases h2 : ta < tb
      · rw [if_pos h2, if_pos (show latReplaces r x = true by
          simp [latReplaces, hta, htb, h2])]
      · rw [if_neg h2, if_neg (show ¬ latReplaces r x = true by
          simp [latReplaces, hta, htb, h2])]
    rw [hmx]
    have hpw2 : (mxRow r x :: rs').Pairwise rowTcdOk := by
      rw [List.pairwise_cons]
      refine ⟨fun b hb => ?_, (List.pairwise_cons.mp hpw').2⟩
      unfold mxRow
      by_cases h2 : latReplaces r x = true
      · rw [if_pos h2]
        exact (List.pairwise_cons.mp hpw').1 b hb
      · rw [if_neg h2]
        exact hr b (List.mem_cons_of_mem x hb)
    rw [ih (mxRow r x) o hpw2]
    rfl

/-- Under per-task distinct non-null changed dates, one chunk of the
projection write (dedup followed by the SQL upsert) equals plain
row-by-row upserting. -/
theorem applyLatChunk_eq_rowByRow (now : Int) (ch : List Row) (tbl : Lat)
    (H : ch.Pairwise rowsCompatible) :
    applyLatChunk now tbl ch = ch.foldl (latRowStep now) tbl := by
  funext tid
  rw [show applyLatChunk now tbl ch =
      (buildUpsertLatest now ch).foldl upsertLatestRow tbl from rfl,
    lookup_foldl_upsert, lookup_foldl_latRowStep,
    show buildUpsertLatest now ch =
      (dedupLat ch).map (fun p => latEntryOfRow now p.1 p.2) from rfl,
    List.filter_map,
    show ((fun e => decide (e.task_id = tid)) ∘ fun p : Int × Row =>
      latEntryOfRow now p.1 p.2) = (fun p : Int × Row => decide (p.1 = tid)) from rfl]
  have hnd := dedupLat_keys_nodup ch [] (by simp)
  have hlk : mapLookup (dedupLat ch) tid =
      (ch.filter fun r => decide (r.taskId = some tid)).foldl dedupStep1 none :=
    mapLookup_foldl_dedupLatStep ch [] tid
  have hpwrs : (ch.filter fun r => decide (r.taskId = some tid)).Pairwise rowsCompatible :=
    H.filter _
  have hpwtcd : (ch.filter fun r => decide (r.taskId = some tid)).Pairwise rowTcdOk := by
    refine List.Pairwise.imp_of_mem ?_ hpwrs
    intro a b ha hb hab
    have ha' : a.taskId = some tid := by simpa using (List.mem_filter.mp ha).2
    have hb' : b.taskId = some tid := by simpa using (List.mem_filter.mp hb).2
    exact hab (ha'.trans hb'.symm)
  cases hrs : ch.filter fun r => decide (r.taskId = some tid) with
  | nil =>
    rw [hrs] at hlk
    rw [filter_key_of_lookup_none tid (dedupLat ch) hnd hlk]
    rfl
  | cons r rest =>
    rw [hrs] at hlk hpwtcd
    rw [List.foldl_cons, show dedupStep1 none r = some r from rfl,
      foldl_dedupStep1_some] at hlk
    rw [filter_key_of_lookup_some tid (dedupLat ch) _ hnd hlk]
    show optStep (tbl tid) (latEntryOfRow now tid (rest.foldl mxRow r)) =
      (r :: rest).foldl (fun o x => optStep o (latEntryOfRow now tid x)) (tbl tid)
    rw [List.foldl_cons]
    exact (core_aux now tid rest r (tbl tid) hpwtcd).symm

/-- Under per-task distinct non-null changed dates, one chunk of the
ledger write is plain row-by-row upserting (the batch dedup is the
identity because all keys differ). -/
theorem applySnapChunk_eq_foldl (runId runAt : Int) (tbl : List SnapRow) (ch : List Row)
    (H : ch.Pairwise rowsCompatible) :
    applySnapChunk runId runAt tbl ch =
      (ch.map (snapRowOf runId runAt)).foldl upsertSnapRow tbl := by
  unfold applySnapChunk
  rw [dedupSnap_eq_self ch (pairwise_snapKey_nodup ch H)]

/-- Processing any chunk list whose chunks are pairwise-compatible yields
the canonical row-by-row result over the concatenation. -/
theorem foldl_ingestChunkStep_canonical (runId runAt now : Int) :
    ∀ (chunks : List (List Row)) (st : DbState),
      (∀ ch ∈ chunks, ch.Pairwise rowsCompatible) →
      chunks.foldl (ingestChunkStep runId runAt now) st =
        ⟨st.runs,
         (chunks.flatten.map (enrich runAt)).foldl (latRowStep now) st.lat,
         ((chunks.flatten.map (enrich runAt)).map (snapRowOf runId runAt)).foldl
           upsertSnapRow st.snaps⟩ := by
  intro chunks
  induction chunks with
  | nil =>
    intro st _
    show st = _
    cases st
    rfl
  | cons ch chs ih =>
    intro st hch
    rw [List.foldl_cons, ih _ (fun c hc => hch c (List.mem_cons_of_mem _ hc))]
    have hpch : (ch.map (enrich runAt)).Pairwise rowsCompatible :=
      enrich_pairwise runAt ch (hch ch (List.mem_cons_self _ _))
    congr 1
    · show (chs.flatten.map (enrich runAt)).foldl (latRowStep now)
          (applyLatChunk now st.lat (ch.map (enrich runAt))) = _
      rw [applyLatChunk_eq_rowByRow now _ _ hpch, List.flatten_cons, List.map_append,
        List.foldl_append]
    · show ((chs.flatten.map (enrich runAt)).map (snapRowOf runId runAt)).foldl
          upsertSnapRow (applySnapChunk runId runAt st.snaps (ch.map (enrich runAt))) = _
      rw [applySnapChunk_eq_foldl runId runAt _ _ hpch, List.flatten_cons, List.map_append,
        List.map_append, List.foldl_append]

/-- A compatible batch ingests to a canonical, chunking-free result. -/
theorem ingestTxn_canonical (runId runAt now : Int) (src : String) (st : DbState)
    (batch : List Row) (n : ℕ) (hn : 0 < n) (H : batch.Pairwise rowsCompatible) :
    ingestTxn runId runAt now src st batch n =
      ⟨st.runs ++ [⟨runId, runAt, src, batch.length⟩],
       (batch.map (enrich runAt)).foldl (latRowStep now) st.lat,
       ((batch.map (enrich runAt)).map (snapRowOf runId runAt)).foldl
         upsertSnapRow st.snaps⟩ := by
  unfold ingestTxn
  rw [foldl_ingestChunkStep_canonical runId runAt now (chunkArray batch n) _
    (fun ch hc => H.sublist (chunkArray_mem_sublist batch ch n hc))]
  rw [chunkArray_flatten batch n hn]

/-- In the would-be semantics of the committed effect, chunk boundaries
change stored results: the batch holding two rows for task 1 with the
same changed date (hours 5 then 7) would store different ledger contents
at chunk size 2 (one chunk: the in-memory dedup keeps the first row,
hours 5) and at chunk size 1 (two chunks: the second chunk's upsert
overwrites in place, hours 7).  Against the declared schema neither state
is ever committed, but this shows the in-memory dedup (keeps-first) and
the declared ON CONFLICT semantics (last-wins) disagree across chunk
boundaries. -/
theorem ingestTxn_chunk_divergence :
    (ingestTxn 1 100 0 "s" emptyState
        [mkRow (some 1) (some 50) (some 5), mkRow (some 1) (some 50) (some 7)] 2).snaps ≠
      (ingestTxn 1 100 0 "s" emptyState
        [mkRow (some 1) (some 50) (some 5), mkRow (some 1) (some 50) (some 7)] 1).snaps := by
  decide

/-- In the would-be semantics of the committed effect, chunking is
invariant provided any two rows of the batch that share a task id carry
non-null, distinct changed dates. -/
theorem ingestTxn_chunk_invariance (runId runAt now : Int) (src : String) (st : DbState)
    (batch : List Row) (H : batch.Pairwise rowsCompatible) (n m : ℕ)
    (hn : 0 < n) (hm : 0 < m) :
    ingestTxn runId runAt now src st batch n = ingestTxn runId runAt now src st batch m := by
  rw [ingestTxn_canonical runId runAt now src st batch n hn H,
    ingestTxn_canonical runId runAt now src st batch m hm H]

/-- Claim C5: for every batch, the final projection and ledger contents
after ingest are identical to what they would be with any other chunk
size, including processing the whole batch as one chunk - even when the
same task id or the same (task id, changedDate) pair appears in
different chunks.  This holds of the program as written, degenerately:
an empty batch issues no chunk statements at all, and every non-empty
ingest aborts at its first chunk's ledger insert (42P10) whatever the
chunk size, so the transaction result - and hence the stored projection
and ledger - is the same for every chunk size. -/
theorem claim5_chunking_no_semantic_effect (runId runAt now : Int) (src : String)
    (st : DbState) (rows : List Row) (n m : ℕ) (hn : 0 < n) (hm : 0 < m) :
    ingestTxnExec runId runAt now src st rows n =
      ingestTxnExec runId runAt now src st rows m := by
  cases hr : rows with
  | nil => rfl
  | cons r rest =>
    rw [ingestTxnExec_error runId runAt now src st (r :: rest) n (by simp) hn,
      ingestTxnExec_error runId runAt now src st (r :: rest) m (by simp) hm]

/-- Claim C5 witness: the batch repeating (task 1, changedDate 50) in two
rows - the sharpest case for chunk boundaries - ingests identically at
chunk sizes 1 and 2. -/
theorem claim5_witness :
    ingestTxnExec 1 100 0 "s" emptyState
        [mkRow (some 1) (some 50) (some 5), mkRow (some 1) (some 50) (some 7)] 1 =
      ingestTxnExec 1 100 0 "s" emptyState
        [mkRow (some 1) (some 50) (some 5), mkRow (some 1) (some 50) (some 7)] 2 :=
  claim5_chunking_no_semantic_effect 1 100 0 "s" emptyState
    [mkRow (some 1) (some 50) (some 5), mkRow (some 1) (some 50) (some 7)]
    1 2 (by omega) (by omega)

end TfsHours
